import Mathlib

/-!
Shallow embedding of the sw-collector incremental log-to-inventory
synchronization engine (`src/libimcv/plugins/imc_swima/sw_collector/sw-collector.c`,
function `extract_history`), together with interface models of its
collaborators (persistence database, history extractor, line tokenizer),
and proofs of the specified properties.
-/

namespace SwCollector

/-- Operation kinds passed to `extract_packages`
(`SW_OP_INSTALL`, `SW_OP_UPGRADE`, `SW_OP_REMOVE` in the source;
the `Purge` branch of `extract_history` reuses `SW_OP_REMOVE`). -/
inductive SwOp where
  | install
  | upgrade
  | remove
deriving DecidableEq, Repr

/-- One invocation of `history->extract_packages(history, line, eid, op)`:
the remainder of the log line, the owning transaction id, the operation kind. -/
structure PkgCall where
  rest : String
  eid : Nat
  op : SwOp
deriving DecidableEq, Repr

/-- The history-extractor collaborator (`sw_collector_history_t`, whose
implementation is outside the embedded source): `extract_timestamp` yields
the normalized timestamp or fails, `extract_packages` succeeds or fails,
`merge_installed_packages` succeeds or fails. -/
structure History where
  extract_timestamp : String → Option String
  extract_packages : String → Nat → SwOp → Bool
  merge_installed_packages : Bool

/-- Modelled from the spec: the persistence collaborator (§6) owns the
append-only transactions table; `get_last_event` returns the last committed
event (id, epoch, timestamp) or none, `add_event` commits a new event with a
monotonically assigned id (§3: "identifier (monotonic integer, assigned on
commit)") and returns its id, or 0 on a persistence failure (`failAdd` is
the failure oracle, indexed by the number of events stored at call time). -/
structure DB where
  events : List (Nat × String)
  epoch : Nat
  failAdd : Nat → Bool

/-- Modelled from the spec: `get_last_event() -> (id, epoch, timestamp) or none`. -/
def DB.get_last_event (db : DB) : Option (Nat × Nat × String) :=
  db.events.getLast?.map (fun p => (p.1, db.epoch, p.2))

/-- Id of the last stored event (0 when the table is empty). -/
def DB.lastEid (db : DB) : Nat :=
  ((db.events.getLast?).map Prod.fst).getD 0

/-- Modelled from the spec: `add_event(timestamp) -> id or 0-on-failure`;
on success the event is appended with the next monotonic id. -/
def DB.add_event (db : DB) (t : String) : Nat × DB :=
  if db.failAdd db.events.length then (0, db)
  else (db.lastEid + 1, { db with events := db.events ++ [(db.lastEid + 1, t)] })

/-- Lexicographic comparison of element lists (kernel-reducible); with
`α := Char` on ASCII strings this is exactly C `strcmp(a, b) < 0`. -/
def ltChars {α : Type} [LinearOrder α] : List α → List α → Bool
  | [], [] => false
  | [], _ :: _ => true
  | _ :: _, [] => false
  | a :: as, b :: bs => if a < b then true else if b < a then false else ltChars as bs

/-- `strcmp a b < 0`: byte-lexicographic comparison of C strings (the
normalized timestamps are ASCII, where codepoint order is byte order). -/
def strLt (a b : String) : Bool := ltChars a.data b.data

/-- `strcmp a b <= 0`, i.e. `¬ (b < a)` for the total byte order. -/
def strLe (a b : String) : Bool := !(strLt b a)

/-- Modelled from the spec: the Line Tokenizer (§4.2) splits a raw line at
the first occurrence of the delimiter into (keyword, remainder); fails when
the delimiter is absent (`extract_token(&cmd, ':', &line)` in the source,
implemented by the lexparser collaborator). Recursion over the character
list of the line. -/
def splitTok : List Char → Option (List Char × List Char)
  | [] => none
  | c :: cs =>
    if c = ':' then some ([], cs)
    else (splitTok cs).map (fun p => (c :: p.1, p.2))

/-- String-level tokenizer: split at the first `':'`. -/
def extract_token (l : String) : Option (String × String) :=
  (splitTok l.data).map (fun p => (⟨p.1⟩, ⟨p.2⟩))

/-- Loop state of `extract_history`: the `skip` flag, the current event id
`eid`, the database handle, plus the trace of `extract_packages`
invocations made so far (used to state the claims about package events). -/
structure RunState where
  skip : Bool
  eid : Nat
  db : DB
  pkgCalls : List PkgCall

/-- The reasons control reaches `end:` (or an early `return`) in
`extract_history`, plus the pre-loop failures. -/
inductive AbortReason where
  | notConfigured
  | mapFailed
  | unsupportedOS
  | noCursor
  | malformedLine
  | timestampError
  | addEventFailed
  | packagesError
  | countReached
deriving DecidableEq, Repr

/-- Result of processing one line in the loop body: continue with a new
state, or `goto end` with a reason. -/
inductive StepRes where
  | cont (s : RunState)
  | halt (s : RunState) (r : AbortReason)

/-- The Install/Upgrade/Remove/Purge branch body:
`if (!history->extract_packages(history, line, eid, op)) goto end;`.
The invocation is recorded in the trace whether or not it succeeds. -/
def opStep (hist : History) (line : String) (s : RunState) (op : SwOp) : StepRes :=
  let s' := { s with pkgCalls := s.pkgCalls ++ [⟨line, s.eid, op⟩] }
  if hist.extract_packages line s.eid op then .cont s'
  else .halt s' .packagesError

/-- One iteration of the `while (fetchline(...))` loop body of
`extract_history` (sw-collector.c lines 212-295), for one line `l`:
  * empty lines are skipped;
  * `extract_token(&cmd, ':', &line)` failure aborts (`malformedLine`);
  * `Start-Date`: the timestamp is extracted first (failure aborts), then
    `skip` is cleared iff `strcmp(rfc_time, last_time) > 0`; while skipping
    the line is ignored, otherwise `db->add_event` commits a new event
    (0 return aborts);
  * while `skip`, every other line is ignored;
  * `Install`/`Upgrade`/`Remove`/`Purge` route to `extract_packages`
    (Purge with the Remove operation);
  * `End-Date`: with a positive `count`, stop when `eid - last_eid == count`
    (the uint32 subtraction cannot wrap here: whenever this line is reached
    with `skip` cleared, `eid` is an id returned by `add_event` after the
    run started, hence `eid ≥ last_eid + 1`). -/
def stepLine (hist : History) (count last_eid : Nat) (last_time : String)
    (l : String) (s : RunState) : StepRes :=
  if l.length = 0 then .cont s
  else
    match extract_token l with
    | none => .halt s .malformedLine
    | some (cmd, line) =>
      if cmd = "Start-Date" then
        match hist.extract_timestamp line with
        | none => .halt s .timestampError
        | some rfc_time =>
          if s.skip && !(strLt last_time rfc_time) then .cont s
          else
            match s.db.add_event rfc_time with
            | (eid, db') =>
              if eid = 0 then .halt { s with skip := false, db := db' } .addEventFailed
              else .cont { skip := false, eid := eid, db := db', pkgCalls := s.pkgCalls }
      else if s.skip then .cont s
      else if cmd = "Install" then opStep hist line s .install
      else if cmd = "Upgrade" then opStep hist line s .upgrade
      else if cmd = "Remove" then opStep hist line s .remove
      else if cmd = "Purge" then opStep hist line s .remove
      else if cmd = "End-Date" then
        if 0 < count ∧ s.eid - last_eid = count then .halt s .countReached
        else .cont s
      else .cont s

/-- The parse loop of `extract_history`: process the lines in order until
the list is exhausted (normal end-of-file, exit reason `none`) or a step
halts. Returns the final loop state, the exit reason, and the lines that
were never consumed. -/
def processLines (hist : History) (count last_eid : Nat) (last_time : String) :
    List String → RunState → RunState × Option AbortReason × List String
  | [], s => (s, none, [])
  | l :: ls, s =>
    match stepLine hist count last_eid last_time l s with
    | .cont s' => processLines hist count last_eid last_time ls s'
    | .halt s' r => (s', some r, ls)

/-- `EXIT_SUCCESS` of the C runtime. -/
def EXIT_SUCCESS : Nat := 0

/-- `EXIT_FAILURE` of the C runtime. -/
def EXIT_FAILURE : Nat := 1

/-- The C `FALSE` constant (returned by `extract_history` on the two
pre-history failure paths); numerically equal to `EXIT_SUCCESS`. -/
def FALSE_INT : Nat := 0

/-- Configuration of one extract run: the `sw-collector.history` setting,
whether `chunk_map` succeeds, whether `sw_collector_history_create`
succeeds (OS supported), and the `--count` event budget (0 = unlimited). -/
structure Config where
  historyPath : Option String
  mapOk : Bool
  osSupported : Bool
  count : Nat

/-- Everything observable about one `extract_history` run: the returned
status, the database after the run, the trace of `extract_packages` calls,
how many times `merge_installed_packages` was invoked, the unconsumed
lines, the final skip flag, and the reason the run ended early (if any). -/
structure RunOutcome where
  status : Nat
  db : DB
  pkgCalls : List PkgCall
  mergeCalls : Nat
  remaining : List String
  skip : Bool
  exitReason : Option AbortReason

/-- `extract_history` (sw-collector.c lines 170-308):
  * unset history path: prints an error and `return FALSE` (line 186);
  * `chunk_map` failure: prints an error and `return FALSE` (line 191);
  * `sw_collector_history_create` failure: `goto end` with
    `status = EXIT_FAILURE` (line 200);
  * `get_last_event` failure or `last_eid == 0`: `goto end` with
    `status = EXIT_FAILURE` (line 206);
  * otherwise run the parse loop from `skip = TRUE`, `eid = 0`; when the
    loop halts, `status` is still `EXIT_FAILURE`; on normal end-of-file
    `merge_installed_packages` is invoked once and `status` becomes
    `EXIT_SUCCESS` iff it succeeds. -/
def extract_history (cfg : Config) (hist : History) (db : DB)
    (lines : List String) : RunOutcome :=
  match cfg.historyPath with
  | none => ⟨FALSE_INT, db, [], 0, lines, true, some .notConfigured⟩
  | some _ =>
    if cfg.mapOk = false then ⟨FALSE_INT, db, [], 0, lines, true, some .mapFailed⟩
    else if cfg.osSupported = false then
      ⟨EXIT_FAILURE, db, [], 0, lines, true, some .unsupportedOS⟩
    else
      match db.get_last_event with
      | none => ⟨EXIT_FAILURE, db, [], 0, lines, true, some .noCursor⟩
      | some (last_eid, _epoch, last_time) =>
        if last_eid = 0 then ⟨EXIT_FAILURE, db, [], 0, lines, true, some .noCursor⟩
        else
          match processLines hist cfg.count last_eid last_time lines ⟨true, 0, db, []⟩ with
          | (s, some r, rem) => ⟨EXIT_FAILURE, s.db, s.pkgCalls, 0, rem, s.skip, some r⟩
          | (s, none, rem) =>
            ⟨if hist.merge_installed_packages then EXIT_SUCCESS else EXIT_FAILURE,
             s.db, s.pkgCalls, 1, rem, s.skip, none⟩

/-- The sequence of normalized timestamps of the `Start-Date` lines of a
log, in order, as the extractor would produce them (lines whose keyword is
not `Start-Date`, lines without the delimiter, and `Start-Date` lines whose
timestamp does not parse contribute nothing). -/
def startTimes (hist : History) : List String → List String
  | [] => []
  | l :: ls =>
    match extract_token l with
    | some (cmd, line) =>
      if cmd = "Start-Date" then
        match hist.extract_timestamp line with
        | some t => t :: startTimes hist ls
        | none => startTimes hist ls
      else startTimes hist ls
    | none => startTimes hist ls

/-! ### Order facts for the byte-lexicographic comparison -/

theorem ltChars_cons_iff {α : Type} [LinearOrder α] (a b : α) (as bs : List α) :
    ltChars (a :: as) (b :: bs) = true ↔ a < b ∨ (a = b ∧ ltChars as bs = true) := by
  simp only [ltChars]
  split_ifs with h1 h2
  · simp [h1]
  · constructor
    · intro h; cases h
    · rintro (h | ⟨rfl, -⟩)
      · exact absurd h h1
      · exact absurd h2 (lt_irrefl a)
  · have hab : a = b := le_antisymm (not_lt.mp h2) (not_lt.mp h1)
    subst hab
    simp

theorem ltChars_irrefl {α : Type} [LinearOrder α] (a : List α) : ltChars a a = false := by
  induction a with
  | nil => rfl
  | cons x xs ih =>
    rw [Bool.eq_false_iff]
    intro h
    rcases (ltChars_cons_iff x x xs xs).mp h with h' | ⟨-, h'⟩
    · exact lt_irrefl x h'
    · rw [ih] at h'; cases h'

theorem ltChars_trans {α : Type} [LinearOrder α] :
    ∀ (a b c : List α), ltChars a b = true → ltChars b c = true → ltChars a c = true := by
  intro a
  induction a with
  | nil =>
    intro b c hab hbc
    cases b with
    | nil => exact absurd hab (by simp [ltChars])
    | cons y ys =>
      cases c with
      | nil => exact absurd hbc (by simp [ltChars])
      | cons z zs => rfl
  | cons x xs ih =>
    intro b c hab hbc
    cases b with
    | nil => exact absurd hab (by simp [ltChars])
    | cons y ys =>
      cases c with
      | nil => exact absurd hbc (by simp [ltChars])
      | cons z zs =>
        rcases (ltChars_cons_iff x y xs ys).mp hab with hxy | ⟨hxy, hxy'⟩ <;>
          rcases (ltChars_cons_iff y z ys zs).mp hbc with hyz | ⟨hyz, hyz'⟩
        · exact (ltChars_cons_iff x z xs zs).mpr (Or.inl (lt_trans hxy hyz))
        · exact (ltChars_cons_iff x z xs zs).mpr (Or.inl (hyz ▸ hxy))
        · exact (ltChars_cons_iff x z xs zs).mpr (Or.inl (hxy ▸ hyz))
        · exact (ltChars_cons_iff x z xs zs).mpr
            (Or.inr ⟨hxy.trans hyz, ih ys zs hxy' hyz'⟩)

theorem ltChars_eq_of_not_lt {α : Type} [LinearOrder α] :
    ∀ (a b : List α), ltChars a b = false → ltChars b a = false → a = b := by
  intro a
  induction a with
  | nil =>
    intro b hab _
    cases b with
    | nil => rfl
    | cons y ys => exact absurd hab (by simp [ltChars])
  | cons x xs ih =>
    intro b hab hba
    cases b with
    | nil => exact absurd hba (by simp [ltChars])
    | cons y ys =>
      rw [Bool.eq_false_iff] at hab hba
      rcases lt_trichotomy x y with h | h | h
      · exact absurd ((ltChars_cons_iff x y xs ys).mpr (Or.inl h)) hab
      · subst h
        have hxs : ltChars xs ys = false := by
          rw [Bool.eq_false_iff]
          intro hc
          exact hab ((ltChars_cons_iff x x xs ys).mpr (Or.inr ⟨rfl, hc⟩))
        have hys : ltChars ys xs = false := by
          rw [Bool.eq_false_iff]
          intro hc
          exact hba ((ltChars_cons_iff x x ys xs).mpr (Or.inr ⟨rfl, hc⟩))
        rw [ih ys hxs hys]
      · exact absurd ((ltChars_cons_iff y x ys xs).mpr (Or.inl h)) hba

/-- From `a < b` and `b ≤ c` (expressed as `¬ c < b`) conclude `a < c`. -/
theorem ltChars_lt_of_lt_of_le {α : Type} [LinearOrder α] (a b c : List α)
    (hab : ltChars a b = true) (hcb : ltChars c b = false) : ltChars a c = true := by
  cases hac : ltChars a c with
  | true => rfl
  | false =>
    cases hca : ltChars c a with
    | true => exact absurd (ltChars_trans c a b hca hab) (by rw [hcb]; simp)
    | false =>
      have : a = c := ltChars_eq_of_not_lt a c hac hca
      subst this
      rw [hab] at hcb
      cases hcb

/-- `strLt` version of `ltChars_lt_of_lt_of_le`. -/
theorem strLt_lt_of_lt_of_le (a b c : String)
    (hab : strLt a b = true) (hcb : strLt c b = false) : strLt a c = true :=
  ltChars_lt_of_lt_of_le a.data b.data c.data hab hcb

theorem strLt_irrefl (a : String) : strLt a a = false := ltChars_irrefl a.data

theorem strLt_asymm (a b : String) (h : strLt a b = true) : strLt b a = false := by
  cases hba : strLt b a with
  | false => rfl
  | true => exact absurd (ltChars_trans a.data b.data a.data h hba) (by rw [ltChars_irrefl]; simp)

/-! ### Tokenizer facts -/

theorem splitTok_eq_none {l : List Char} (h : ':' ∉ l) : splitTok l = none := by
  induction l with
  | nil => rfl
  | cons c cs ih =>
    simp only [splitTok]
    rw [if_neg (by intro hc; exact h (hc ▸ List.mem_cons_self c cs)),
        ih (fun hc => h (List.mem_cons_of_mem c hc))]
    rfl

theorem splitTok_keyword {pre rest : List Char} (h : ':' ∉ pre) :
    splitTok (pre ++ ':' :: rest) = some (pre, rest) := by
  induction pre with
  | nil => simp [splitTok]
  | cons c cs ih =>
    rw [List.cons_append]
    simp only [splitTok]
    rw [if_neg (by intro hc; exact h (hc ▸ List.mem_cons_self c cs)),
        ih (fun hc => h (List.mem_cons_of_mem c hc))]
    rfl

theorem extract_token_eq_none {l : String} (h : ':' ∉ l.data) : extract_token l = none := by
  unfold extract_token
  rw [splitTok_eq_none h]
  rfl

/-! ### Loop decomposition -/

theorem processLines_append (hist : History) (c le : Nat) (lt : String)
    (xs ys : List String) (s : RunState) :
    processLines hist c le lt (xs ++ ys) s =
      match processLines hist c le lt xs s with
      | (s', none, _) => processLines hist c le lt ys s'
      | (s', some r, rem) => (s', some r, rem ++ ys) := by
  induction xs generalizing s with
  | nil => rfl
  | cons l ls ih =>
    simp only [List.cons_append, processLines]
    cases stepLine hist c le lt l s with
    | cont s' => exact ih s'
    | halt s' r => rfl

/-! ### Evaluation of the loop body on each recognized line shape -/

theorem stepLine_startDate (hist : History) (c le : Nat) (lt r : String) (s : RunState) :
    stepLine hist c le lt ("Start-Date:" ++ r) s =
      match hist.extract_timestamp r with
      | none => .halt s .timestampError
      | some rfc_time =>
        if s.skip && !(strLt lt rfc_time) then .cont s
        else
          match s.db.add_event rfc_time with
          | (eid, db') =>
            if eid = 0 then .halt { s with skip := false, db := db' } .addEventFailed
            else .cont { skip := false, eid := eid, db := db', pkgCalls := s.pkgCalls } := rfl

theorem stepLine_install (hist : History) (c le : Nat) (lt r : String) (s : RunState) :
    stepLine hist c le lt ("Install:" ++ r) s =
      (if s.skip then .cont s else opStep hist r s .install) := rfl

theorem stepLine_upgrade (hist : History) (c le : Nat) (lt r : String) (s : RunState) :
    stepLine hist c le lt ("Upgrade:" ++ r) s =
      (if s.skip then .cont s else opStep hist r s .upgrade) := rfl

theorem stepLine_remove (hist : History) (c le : Nat) (lt r : String) (s : RunState) :
    stepLine hist c le lt ("Remove:" ++ r) s =
      (if s.skip then .cont s else opStep hist r s .remove) := rfl

theorem stepLine_purge (hist : History) (c le : Nat) (lt r : String) (s : RunState) :
    stepLine hist c le lt ("Purge:" ++ r) s =
      (if s.skip then .cont s else opStep hist r s .remove) := rfl

theorem stepLine_endDate (hist : History) (c le : Nat) (lt r : String) (s : RunState) :
    stepLine hist c le lt ("End-Date:" ++ r) s =
      (if s.skip then .cont s
       else if 0 < c ∧ s.eid - le = c then .halt s .countReached else .cont s) := rfl

/-! ### The inventory merger and package events (outside the embedded source) -/

/-- Modelled from the spec: a `PackageEvent` (§3) — one package affected
within a transaction: owning transaction identifier, operation kind,
package identity. -/
structure PackageEvent where
  tid : Nat
  op : SwOp
  name : String
  package : String
  version : String
deriving DecidableEq, Repr

/-- Modelled from the spec: an `InventoryItem` (§3) — canonical deduplicated
software identity with its installed flag; unique key (name, package,
version). -/
structure InventoryItem where
  name : String
  package : String
  version : String
  installed : Bool
deriving DecidableEq, Repr

/-- Modelled from the spec: the Inventory Merger upsert (§4.4) — set the
installed flag on the item keyed `(n, p, v)` if present, else append it. -/
def upsertKey (inv : List InventoryItem) (n p v : String) (inst : Bool) :
    List InventoryItem :=
  if inv.any (fun it => it.name = n ∧ it.package = p ∧ it.version = v) then
    inv.map (fun it =>
      if it.name = n ∧ it.package = p ∧ it.version = v then
        { it with installed := inst }
      else it)
  else inv ++ [⟨n, p, v, inst⟩]

/-- Modelled from the spec: merging one `PackageEvent` (§4.4): Install and
Upgrade upsert with installed = true; Remove upserts with installed =
false. -/
def mergeOne (inv : List InventoryItem) (e : PackageEvent) : List InventoryItem :=
  match e.op with
  | .install => upsertKey inv e.name e.package e.version true
  | .upgrade => upsertKey inv e.name e.package e.version true
  | .remove => upsertKey inv e.name e.package e.version false

/-- Modelled from the spec: `merge(events)` (§4.4) folds the run's package
events into the inventory. -/
def mergeEvents (inv : List InventoryItem) (evs : List PackageEvent) :
    List InventoryItem :=
  evs.foldl mergeOne inv

/-- Modelled from the spec: the `PackageEvent`s of a run are those parsed
from the remainders passed to the `extract_packages` invocations, in order
(`parse` is the per-package-manager payload parser of §4.3). -/
def eventsOfCalls (parse : String → Nat → SwOp → List PackageEvent)
    (calls : List PkgCall) : List PackageEvent :=
  calls.foldr (fun c acc => parse c.rest c.eid c.op ++ acc) []

/-! ### Concrete fixtures used by witnesses and counterexamples -/

/-- A history extractor whose timestamp parser is the identity on the
remainder and whose package extraction and final merge always succeed. -/
def histId : History := ⟨fun r => some r, fun _ _ _ => true, true⟩

/-- A database holding one committed transaction (id 1, timestamp "B"),
whose `add_event` never fails. -/
def dbB : DB := ⟨[(1, "B")], 7, fun _ => false⟩

/-- A configuration with the history path set, mapping and extractor
creation succeeding, and no event-count budget. -/
def cfgNoCount : Config := ⟨some "/var/log/apt/history.log", true, true, 0⟩

/-- Same as `cfgNoCount` but with an event-count budget of 2. -/
def cfgCount2 : Config := ⟨some "/var/log/apt/history.log", true, true, 2⟩

/-- Four well-formed transaction blocks, all newer than timestamp "B". -/
def fourBlocks : List String :=
  ["Start-Date:C", "End-Date:", "Start-Date:D", "End-Date:",
   "Start-Date:E", "End-Date:", "Start-Date:F", "End-Date:"]


theorem length_zero_token {l : String} (h : l.length = 0) : extract_token l = none := by
  have hd : l.data = [] := List.length_eq_zero.mp h
  exact extract_token_eq_none (by rw [hd]; exact List.not_mem_nil _)

theorem startTimes_cons_none (hist : History) {l : String} (ls : List String)
    (h : extract_token l = none) :
    startTimes hist (l :: ls) = startTimes hist ls := by
  simp [startTimes, h]

theorem processLines_skip_all (hist : History) (c le : Nat) (lt : String) :
    ∀ (lines : List String) (s : RunState), s.skip = true →
      (∀ t ∈ startTimes hist lines, strLt lt t = false) →
      (processLines hist c le lt lines s).1 = s := by
  intro lines
  induction lines with
  | nil => intro s _ _; rfl
  | cons l ls ih =>
    intro s hskip hall
    by_cases hlen : l.length = 0
    · have hstep : stepLine hist c le lt l s = .cont s := by simp [stepLine, hlen]
      rw [processLines, hstep]
      exact ih s hskip
        (by rw [startTimes_cons_none hist ls (length_zero_token hlen)] at hall; exact hall)
    · cases hm : extract_token l with
      | none =>
        have hstep : stepLine hist c le lt l s = .halt s .malformedLine := by
          simp [stepLine, hlen, hm]
        rw [processLines, hstep]
      | some p =>
        obtain ⟨cmd, line⟩ := p
        by_cases hcmd : cmd = "Start-Date"
        · subst hcmd
          cases ht : hist.extract_timestamp line with
          | none =>
            have hstep : stepLine hist c le lt l s = .halt s .timestampError := by
              simp [stepLine, hlen, hm, ht]
            rw [processLines, hstep]
          | some rfc =>
            have hrfc : strLt lt rfc = false := by
              apply hall
              simp [startTimes, hm, ht]
            have hstep : stepLine hist c le lt l s = .cont s := by
              simp [stepLine, hlen, hm, ht, hskip, hrfc]
            rw [processLines, hstep]
            apply ih s hskip
            intro t htl
            apply hall
            simp [startTimes, hm, ht]
            exact Or.inr htl
        · have hstep : stepLine hist c le lt l s = .cont s := by
            simp [stepLine, hlen, hm, hcmd, hskip]
          rw [processLines, hstep]
          apply ih s hskip
          intro t htl
          apply hall
          simpa [startTimes, hm, hcmd] using htl

/-- Invariant transfer for the package-event claim: every recorded
`extract_packages` invocation carries a nonzero transaction id that was
committed by `add_event` during this run (the events appended past
`init`). -/
theorem processLines_pkg_invariant (hist : History) (c le : Nat) (lt : String) :
    ∀ (lines : List String) (s : RunState) (init : List (Nat × String))
      (L : List (Nat × String)),
      s.db.events = init ++ L →
      (∀ cl ∈ s.pkgCalls, cl.eid ≠ 0 ∧ cl.eid ∈ L.map Prod.fst) →
      (s.skip = false → s.eid ≠ 0 ∧ s.eid ∈ L.map Prod.fst) →
      ∃ M, (processLines hist c le lt lines s).1.db.events = init ++ M ∧
        ∀ cl ∈ (processLines hist c le lt lines s).1.pkgCalls,
          cl.eid ≠ 0 ∧ cl.eid ∈ M.map Prod.fst := by
  intro lines
  induction lines with
  | nil =>
    intro s init L hev hcalls _
    exact ⟨L, hev, hcalls⟩
  | cons l ls ih =>
    intro s init L hev hcalls hsk
    by_cases hlen : l.length = 0
    · have hstep : stepLine hist c le lt l s = .cont s := by simp [stepLine, hlen]
      rw [processLines, hstep]
      exact ih s init L hev hcalls hsk
    · cases hm : extract_token l with
      | none =>
        have hstep : stepLine hist c le lt l s = .halt s .malformedLine := by
          simp [stepLine, hlen, hm]
        rw [processLines, hstep]
        exact ⟨L, hev, hcalls⟩
      | some p =>
        obtain ⟨cmd, line⟩ := p
        by_cases hcmd : cmd = "Start-Date"
        · subst hcmd
          cases ht : hist.extract_timestamp line with
          | none =>
            have hstep : stepLine hist c le lt l s = .halt s .timestampError := by
              simp [stepLine, hlen, hm, ht]
            rw [processLines, hstep]
            exact ⟨L, hev, hcalls⟩
          | some rfc =>
            by_cases hcond : (s.skip && !(strLt lt rfc)) = true
            · have hstep : stepLine hist c le lt l s = .cont s := by
                simp [stepLine, hlen, hm, ht, hcond]
              rw [processLines, hstep]
              exact ih s init L hev hcalls hsk
            · by_cases hfail : s.db.failAdd s.db.events.length = true
              · have hadd : s.db.add_event rfc = (0, s.db) := by
                  simp [DB.add_event, hfail]
                have hstep : stepLine hist c le lt l s
                    = .halt { s with skip := false, db := s.db } .addEventFailed := by
                  simp [stepLine, hlen, hm, ht, hcond, hadd]
                rw [processLines, hstep]
                exact ⟨L, hev, hcalls⟩
              · have hadd : s.db.add_event rfc
                    = (s.db.lastEid + 1,
                       { s.db with events := s.db.events ++ [(s.db.lastEid + 1, rfc)] }) := by
                  simp [DB.add_event, hfail]
                have hstep : stepLine hist c le lt l s
                    = .cont { skip := false, eid := s.db.lastEid + 1,
                              db := { s.db with
                                      events := s.db.events ++ [(s.db.lastEid + 1, rfc)] },
                              pkgCalls := s.pkgCalls } := by
                  simp [stepLine, hlen, hm, ht, hcond, hadd]
                rw [processLines, hstep]
                apply ih _ init (L ++ [(s.db.lastEid + 1, rfc)])
                · simp [hev]
                · intro cl hcl
                  obtain ⟨hne, hmem⟩ := hcalls cl hcl
                  exact ⟨hne, by simp [hmem]⟩
                · intro _
                  exact ⟨Nat.succ_ne_zero _, by simp⟩
        · by_cases hskip : s.skip = true
          · have hstep : stepLine hist c le lt l s = .cont s := by
              simp [stepLine, hlen, hm, hcmd, hskip]
            rw [processLines, hstep]
            exact ih s init L hev hcalls hsk
          · have hskf : s.skip = false := by simpa using hskip
            obtain ⟨hne, hmem⟩ := hsk hskf
            have hopgen : ∀ (op : SwOp),
                stepLine hist c le lt l s = opStep hist line s op →
                ∃ M, (processLines hist c le lt (l :: ls) s).1.db.events = init ++ M ∧
                  ∀ cl ∈ (processLines hist c le lt (l :: ls) s).1.pkgCalls,
                    cl.eid ≠ 0 ∧ cl.eid ∈ M.map Prod.fst := by
              intro op hstep
              have hcallsx : ∀ cl ∈ s.pkgCalls ++ [⟨line, s.eid, op⟩],
                  cl.eid ≠ 0 ∧ cl.eid ∈ L.map Prod.fst := by
                intro cl hcl
                rcases List.mem_append.mp hcl with hcl | hcl
                · exact hcalls cl hcl
                · rcases List.mem_singleton.mp hcl with rfl
                  exact ⟨hne, hmem⟩
              by_cases hpk : hist.extract_packages line s.eid op = true
              · have hstep' : stepLine hist c le lt l s
                    = .cont { s with pkgCalls := s.pkgCalls ++ [⟨line, s.eid, op⟩] } := by
                  rw [hstep]; simp [opStep, hpk]
                rw [processLines, hstep']
                exact ih _ init L hev hcallsx (fun h => hsk h)
              · have hstep' : stepLine hist c le lt l s
                    = .halt { s with pkgCalls := s.pkgCalls ++ [⟨line, s.eid, op⟩] }
                        .packagesError := by
                  rw [hstep]; simp [opStep, hpk]
                rw [processLines, hstep']
                exact ⟨L, hev, hcallsx⟩
            by_cases hI : cmd = "Install"
            · exact hopgen .install (by subst hI; simp [stepLine, hlen, hm, hcmd, hskf])
            · by_cases hU : cmd = "Upgrade"
              · exact hopgen .upgrade (by subst hU; simp [stepLine, hlen, hm, hskf])
              · by_cases hR : cmd = "Remove"
                · exact hopgen .remove (by subst hR; simp [stepLine, hlen, hm, hskf])
                · by_cases hP : cmd = "Purge"
                  · exact hopgen .remove (by subst hP; simp [stepLine, hlen, hm, hskf])
                  · by_cases hE : cmd = "End-Date"
                    · subst hE
                      by_cases hcnt : (0 < c ∧ s.eid - le = c)
                      · have hstep : stepLine hist c le lt l s = .halt s .countReached := by
                          simp [stepLine, hlen, hm, hskf, hcnt]
                        rw [processLines, hstep]
                        exact ⟨L, hev, hcalls⟩
                      · have hstep : stepLine hist c le lt l s = .cont s := by
                          simp [stepLine, hlen, hm, hskf, hcnt]
                        rw [processLines, hstep]
                        exact ih s init L hev hcalls hsk
                    · have hstep : stepLine hist c le lt l s = .cont s := by
                        simp [stepLine, hlen, hm, hcmd, hskf, hI, hU, hR, hP, hE]
                      rw [processLines, hstep]
                      exact ih s init L hev hcalls hsk

/-- Invariant transfer for the monotonicity claim: with the log's start
times sorted (non-decreasing), every event the loop commits carries a
timestamp strictly above the cursor timestamp `lt`. -/
theorem processLines_events_gt (hist : History) (c le : Nat) (lt : String) :
    ∀ (lines : List String) (s : RunState) (init : List (Nat × String)),
      List.Pairwise (fun x y => strLt y x = false) (startTimes hist lines) →
      ∀ (L : List (Nat × String)),
      s.db.events = init ++ L →
      (∀ p ∈ L, strLt lt p.2 = true) →
      (s.skip = false →
        ∃ b, strLt lt b = true ∧ ∀ t ∈ startTimes hist lines, strLt t b = false) →
      ∃ M, (processLines hist c le lt lines s).1.db.events = init ++ M ∧
        ∀ p ∈ M, strLt lt p.2 = true := by
  intro lines
  induction lines with
  | nil =>
    intro s init _ L hev hgt _
    exact ⟨L, hev, hgt⟩
  | cons l ls ih =>
    intro s init hsort L hev hgt hbound
    by_cases hlen : l.length = 0
    · have hstep : stepLine hist c le lt l s = .cont s := by simp [stepLine, hlen]
      rw [processLines, hstep]
      have hst : startTimes hist (l :: ls) = startTimes hist ls :=
        startTimes_cons_none hist ls (length_zero_token hlen)
      rw [hst] at hsort hbound
      exact ih s init hsort L hev hgt hbound
    · cases hm : extract_token l with
      | none =>
        have hstep : stepLine hist c le lt l s = .halt s .malformedLine := by
          simp [stepLine, hlen, hm]
        rw [processLines, hstep]
        exact ⟨L, hev, hgt⟩
      | some p =>
        obtain ⟨cmd, line⟩ := p
        by_cases hcmd : cmd = "Start-Date"
        · subst hcmd
          cases ht : hist.extract_timestamp line with
          | none =>
            have hstep : stepLine hist c le lt l s = .halt s .timestampError := by
              simp [stepLine, hlen, hm, ht]
            rw [processLines, hstep]
            exact ⟨L, hev, hgt⟩
          | some rfc =>
            have hst : startTimes hist (l :: ls) = rfc :: startTimes hist ls := by
              simp [startTimes, hm, ht]
            rw [hst] at hsort hbound
            by_cases hcond : (s.skip && !(strLt lt rfc)) = true
            · have hstep : stepLine hist c le lt l s = .cont s := by
                simp [stepLine, hlen, hm, ht, hcond]
              rw [processLines, hstep]
              have hskip : s.skip = true := by
                rw [Bool.and_eq_true] at hcond
                exact hcond.1
              apply ih s init (List.Pairwise.of_cons hsort) L hev hgt
              intro hf
              rw [hf] at hskip
              cases hskip
            · have hrfc : strLt lt rfc = true := by
                cases hskv : s.skip with
                | true =>
                  rw [Bool.and_eq_true] at hcond
                  push_neg at hcond
                  have := hcond (by rw [hskv])
                  simpa using this
                | false =>
                  obtain ⟨b, hb1, hb2⟩ := hbound hskv
                  exact strLt_lt_of_lt_of_le lt b rfc hb1 (hb2 rfc (List.mem_cons_self _ _))
              by_cases hfail : s.db.failAdd s.db.events.length = true
              · have hadd : s.db.add_event rfc = (0, s.db) := by
                  simp [DB.add_event, hfail]
                have hstep : stepLine hist c le lt l s
                    = .halt { s with skip := false, db := s.db } .addEventFailed := by
                  simp [stepLine, hlen, hm, ht, hcond, hadd]
                rw [processLines, hstep]
                exact ⟨L, hev, hgt⟩
              · have hadd : s.db.add_event rfc
                    = (s.db.lastEid + 1,
                       { s.db with events := s.db.events ++ [(s.db.lastEid + 1, rfc)] }) := by
                  simp [DB.add_event, hfail]
                have hstep : stepLine hist c le lt l s
                    = .cont { skip := false, eid := s.db.lastEid + 1,
                              db := { s.db with
                                      events := s.db.events ++ [(s.db.lastEid + 1, rfc)] },
                              pkgCalls := s.pkgCalls } := by
                  simp [stepLine, hlen, hm, ht, hcond, hadd]
                rw [processLines, hstep]
                apply ih _ init (List.Pairwise.of_cons hsort) (L ++ [(s.db.lastEid + 1, rfc)])
                · simp [hev]
                · intro q hq
                  rcases List.mem_append.mp hq with hq | hq
                  · exact hgt q hq
                  · rcases List.mem_singleton.mp hq with rfl
                    exact hrfc
                · intro _
                  refine ⟨rfc, hrfc, ?_⟩
                  intro t htl
                  exact (List.pairwise_cons.mp hsort).1 t htl
        · have hst : startTimes hist (l :: ls) = startTimes hist ls := by
            simp [startTimes, hm, hcmd]
          rw [hst] at hsort hbound
          by_cases hskip : s.skip = true
          · have hstep : stepLine hist c le lt l s = .cont s := by
              simp [stepLine, hlen, hm, hcmd, hskip]
            rw [processLines, hstep]
            exact ih s init hsort L hev hgt hbound
          · have hskf : s.skip = false := by simpa using hskip
            have hopgen : ∀ (op : SwOp),
                stepLine hist c le lt l s = opStep hist line s op →
                ∃ M, (processLines hist c le lt (l :: ls) s).1.db.events = init ++ M ∧
                  ∀ p ∈ M, strLt lt p.2 = true := by
              intro op hstep
              by_cases hpk : hist.extract_packages line s.eid op = true
              · have hstep' : stepLine hist c le lt l s
                    = .cont { s with pkgCalls := s.pkgCalls ++ [⟨line, s.eid, op⟩] } := by
                  rw [hstep]; simp [opStep, hpk]
                rw [processLines, hstep']
                exact ih _ init hsort L hev hgt (fun h => hbound h)
              · have hstep' : stepLine hist c le lt l s
                    = .halt { s with pkgCalls := s.pkgCalls ++ [⟨line, s.eid, op⟩] }
                        .packagesError := by
                  rw [hstep]; simp [opStep, hpk]
                rw [processLines, hstep']
                exact ⟨L, hev, hgt⟩
            by_cases hI : cmd = "Install"
            · exact hopgen .install (by subst hI; simp [stepLine, hlen, hm, hcmd, hskf])
            · by_cases hU : cmd = "Upgrade"
              · exact hopgen .upgrade (by subst hU; simp [stepLine, hlen, hm, hskf])
              · by_cases hR : cmd = "Remove"
                · exact hopgen .remove (by subst hR; simp [stepLine, hlen, hm, hskf])
                · by_cases hP : cmd = "Purge"
                  · exact hopgen .remove (by subst hP; simp [stepLine, hlen, hm, hskf])
                  · by_cases hE : cmd = "End-Date"
                    · subst hE
                      by_cases hcnt : (0 < c ∧ s.eid - le = c)
                      · have hstep : stepLine hist c le lt l s = .halt s .countReached := by
                          simp [stepLine, hlen, hm, hskf, hcnt]
                        rw [processLines, hstep]
                        exact ⟨L, hev, hgt⟩
                      · have hstep : stepLine hist c le lt l s = .cont s := by
                          simp [stepLine, hlen, hm, hskf, hcnt]
                        rw [processLines, hstep]
                        exact ih s init hsort L hev hgt hbound
                    · have hstep : stepLine hist c le lt l s = .cont s := by
                        simp [stepLine, hlen, hm, hcmd, hskf, hI, hU, hR, hP, hE]
                      rw [processLines, hstep]
                      exact ih s init hsort L hev hgt hbound


/-- A history extractor whose timestamp parser always fails. -/
def histNoTs : History := ⟨fun _ => none, fun _ _ _ => true, true⟩

/-- The empty database (no cursor). -/
def dbEmpty : DB := ⟨[], 0, fun _ => false⟩

/-- Inversion of a successful `get_last_event`. -/
theorem get_last_event_inv {db : DB} {le ep : Nat} {lt : String}
    (h : db.get_last_event = some (le, ep, lt)) :
    db.events.getLast? = some (le, lt) ∧ db.epoch = ep := by
  unfold DB.get_last_event at h
  cases hg : db.events.getLast? with
  | none => rw [hg] at h; cases h
  | some q =>
    rw [hg] at h
    obtain ⟨q1, q2⟩ := q
    simp only [Option.map_some', Option.some.injEq, Prod.mk.injEq] at h
    obtain ⟨h1, h2, h3⟩ := h
    subst h1
    subst h2
    subst h3
    exact ⟨rfl, rfl⟩

/-- C2 (code_bug): when the history path is not configured, or the log
cannot be mapped, `extract_history` prints an error but returns `FALSE`,
which is numerically `EXIT_SUCCESS` (0), so the failure is reported to the
caller as success; the run does abort before any state change. -/
theorem C2_unreadable_log_exits_success :
    (extract_history ⟨none, true, true, 0⟩ histId dbB ["Start-Date:C"]).status
      = EXIT_SUCCESS ∧
    (extract_history ⟨none, true, true, 0⟩ histId dbB ["Start-Date:C"]).db = dbB ∧
    (extract_history ⟨none, true, true, 0⟩ histId dbB ["Start-Date:C"]).remaining
      = ["Start-Date:C"] ∧
    (extract_history ⟨none, true, true, 0⟩ histId dbB ["Start-Date:C"]).mergeCalls = 0 ∧
    (extract_history ⟨some "/var/log/apt/history.log", false, true, 0⟩ histId dbB
      ["Start-Date:C"]).status = EXIT_SUCCESS ∧
    (extract_history ⟨some "/var/log/apt/history.log", false, true, 0⟩ histId dbB
      ["Start-Date:C"]).db = dbB :=
  ⟨rfl, rfl, rfl, rfl, rfl, rfl⟩

/-- C6: with the run reaching the cursor fetch, a missing cursor (no last
event, or last event id 0) fails the run with `EXIT_FAILURE` before any
line is consumed and without touching the database. -/
theorem C6_no_cursor_fails (cfg : Config) (hist : History) (db : DB)
    (lines : List String) (p : String)
    (hpath : cfg.historyPath = some p) (hmap : cfg.mapOk = true)
    (hos : cfg.osSupported = true)
    (hcur : db.get_last_event = none ∨ ∃ ep t, db.get_last_event = some (0, ep, t)) :
    (extract_history cfg hist db lines).status = EXIT_FAILURE ∧
    (extract_history cfg hist db lines).db = db ∧
    (extract_history cfg hist db lines).remaining = lines ∧
    (extract_history cfg hist db lines).pkgCalls = [] ∧
    (extract_history cfg hist db lines).mergeCalls = 0 := by
  rcases hcur with hcur | ⟨ep, t, hcur⟩ <;>
    simp [extract_history, hpath, hmap, hos, hcur]

theorem C6_no_cursor_fails_witness :
    (extract_history cfgNoCount histId dbEmpty ["Start-Date:C"]).status = EXIT_FAILURE ∧
    (extract_history cfgNoCount histId dbEmpty ["Start-Date:C"]).db = dbEmpty ∧
    (extract_history cfgNoCount histId dbEmpty ["Start-Date:C"]).remaining
      = ["Start-Date:C"] ∧
    (extract_history cfgNoCount histId dbEmpty ["Start-Date:C"]).pkgCalls = [] ∧
    (extract_history cfgNoCount histId dbEmpty ["Start-Date:C"]).mergeCalls = 0 :=
  C6_no_cursor_fails cfgNoCount histId dbEmpty ["Start-Date:C"]
    "/var/log/apt/history.log" rfl rfl rfl (Or.inl rfl)

/-- C9: on a `Start-Date` line the timestamp is extracted and validated
before the skip decision: if extraction fails the loop aborts with
`timestampError` in every state, in particular while skipping. -/
theorem C9_timestamp_checked_before_skip (hist : History) (c le : Nat)
    (lt r : String) (ls : List String) (s : RunState)
    (hts : hist.extract_timestamp r = none) :
    processLines hist c le lt (("Start-Date:" ++ r) :: ls) s
      = (s, some .timestampError, ls) := by
  rw [processLines, stepLine_startDate, hts]

theorem C9_timestamp_checked_before_skip_witness :
    processLines histNoTs 0 1 "B" (("Start-Date:" ++ "junk") :: ["Install:x"])
      ⟨true, 0, dbB, []⟩
      = (⟨true, 0, dbB, []⟩, some .timestampError, ["Install:x"]) :=
  C9_timestamp_checked_before_skip histNoTs 0 1 "B" "junk" ["Install:x"]
    ⟨true, 0, dbB, []⟩ rfl

/-- C8: a `Purge` line is processed identically to a `Remove` line, and
when not skipping the extractor is invoked with the Remove operation kind. -/
theorem C8_purge_normalized_to_remove (hist : History) (c le : Nat)
    (lt r : String) (ls : List String) (s : RunState) :
    processLines hist c le lt (("Purge:" ++ r) :: ls) s
      = processLines hist c le lt (("Remove:" ++ r) :: ls) s ∧
    (s.skip = false →
      (processLines hist c le lt [("Purge:" ++ r)] s).1.pkgCalls
        = s.pkgCalls ++ [⟨r, s.eid, SwOp.remove⟩]) := by
  constructor
  · rfl
  · intro hskf
    rw [processLines, stepLine_purge, if_neg (by rw [hskf]; simp)]
    unfold opStep
    by_cases hpk : hist.extract_packages r s.eid .remove = true
    · rw [if_pos hpk]
      rfl
    · rw [if_neg hpk]

theorem C8_purge_normalized_to_remove_witness :
    (processLines histId 0 1 "B" [("Purge:" ++ "pkg")] ⟨false, 2, dbB, []⟩
      = processLines histId 0 1 "B" [("Remove:" ++ "pkg")] ⟨false, 2, dbB, []⟩) ∧
    (processLines histId 0 1 "B" [("Purge:" ++ "pkg")] ⟨false, 2, dbB, []⟩).1.pkgCalls
      = [⟨"pkg", 2, SwOp.remove⟩] := by
  have h := C8_purge_normalized_to_remove histId 0 1 "B" "pkg" [] ⟨false, 2, dbB, []⟩
  exact ⟨h.1, by rw [h.2 rfl]; rfl⟩

/-- C5: whenever an extract run ends by normal end-of-file, the final
reconciliation `merge_installed_packages` is invoked exactly once and the
run returns `EXIT_SUCCESS` iff the reconciliation succeeds. -/
theorem C5_merge_once_on_eof (cfg : Config) (hist : History) (db : DB)
    (lines : List String)
    (heof : (extract_history cfg hist db lines).exitReason = none) :
    (extract_history cfg hist db lines).mergeCalls = 1 ∧
    ((extract_history cfg hist db lines).status = EXIT_SUCCESS
      ↔ hist.merge_installed_packages = true) := by
  rcases hp : cfg.historyPath with _ | p
  · rw [extract_history, hp] at heof; cases heof
  · cases hmap : cfg.mapOk with
    | false => rw [extract_history, hp] at heof; simp [hmap] at heof
    | true =>
      cases hos : cfg.osSupported with
      | false => rw [extract_history, hp] at heof; simp [hmap, hos] at heof
      | true =>
        rcases hcur : db.get_last_event with _ | ⟨le, ep, lt⟩
        · rw [extract_history, hp, hcur] at heof; simp [hmap, hos] at heof
        · by_cases hle : le = 0
          · subst hle
            rw [extract_history, hp, hcur] at heof
            simp [hmap, hos] at heof
          · rcases hpl : processLines hist cfg.count le lt lines ⟨true, 0, db, []⟩
              with ⟨s1, e1, rem1⟩
            cases e1 with
            | some r =>
              rw [extract_history, hp, hcur] at heof
              simp [hmap, hos, hle, hpl] at heof
            | none =>
              rw [extract_history, hp, hcur]
              simp only [hmap, hos, hle, hpl]
              constructor
              · simp
              · cases hmerge : hist.merge_installed_packages <;>
                  simp [hmerge, EXIT_SUCCESS, EXIT_FAILURE]

theorem C5_merge_once_on_eof_witness :
    (extract_history cfgNoCount histId dbB ["Start-Date:C"]).mergeCalls = 1 ∧
    ((extract_history cfgNoCount histId dbB ["Start-Date:C"]).status = EXIT_SUCCESS
      ↔ histId.merge_installed_packages = true) :=
  C5_merge_once_on_eof cfgNoCount histId dbB ["Start-Date:C"] rfl


/-- C7: when the loop, after an abort-free prefix, reaches a non-empty line
without the `:` delimiter, the run aborts with `malformedLine`, returns
`EXIT_FAILURE`, leaves the database exactly as after the prefix (all
transactions committed so far stay committed), and consumes nothing after
the bad line. -/
theorem C7_malformed_line_aborts (cfg : Config) (hist : History) (db : DB)
    (le ep : Nat) (lt : String) (pref : List String) (bad : String)
    (rest : List String) (p : String)
    (hpath : cfg.historyPath = some p) (hmap : cfg.mapOk = true)
    (hos : cfg.osSupported = true)
    (hcur : db.get_last_event = some (le, ep, lt)) (hle : le ≠ 0)
    (hpref : (processLines hist cfg.count le lt pref ⟨true, 0, db, []⟩).2.1 = none)
    (hbadlen : bad.length ≠ 0) (hbadcolon : ':' ∉ bad.data) :
    (extract_history cfg hist db (pref ++ bad :: rest)).status = EXIT_FAILURE ∧
    (extract_history cfg hist db (pref ++ bad :: rest)).exitReason
      = some .malformedLine ∧
    (extract_history cfg hist db (pref ++ bad :: rest)).db
      = (processLines hist cfg.count le lt pref ⟨true, 0, db, []⟩).1.db ∧
    (extract_history cfg hist db (pref ++ bad :: rest)).remaining = rest := by
  have hsplit := processLines_append hist cfg.count le lt pref (bad :: rest)
    ⟨true, 0, db, []⟩
  rcases hp : processLines hist cfg.count le lt pref ⟨true, 0, db, []⟩
    with ⟨s1, e1, rem1⟩
  rw [hp] at hsplit hpref
  simp only at hpref
  subst hpref
  have hbadstep : stepLine hist cfg.count le lt bad s1 = .halt s1 .malformedLine := by
    simp [stepLine, hbadlen, extract_token_eq_none hbadcolon]
  have hrun : processLines hist cfg.count le lt (pref ++ bad :: rest) ⟨true, 0, db, []⟩
      = (s1, some .malformedLine, rest) := by
    rw [hsplit]
    show processLines hist cfg.count le lt (bad :: rest) s1
      = (s1, some .malformedLine, rest)
    rw [processLines, hbadstep]
  simp [extract_history, hpath, hmap, hos, hcur, hle, hrun, hp]

theorem C7_malformed_line_aborts_witness :
    (extract_history cfgNoCount histId dbB
        (["Start-Date:C"] ++ "nodelimiter" :: ["Install:x"])).status = EXIT_FAILURE ∧
    (extract_history cfgNoCount histId dbB
        (["Start-Date:C"] ++ "nodelimiter" :: ["Install:x"])).exitReason
      = some .malformedLine ∧
    (extract_history cfgNoCount histId dbB
        (["Start-Date:C"] ++ "nodelimiter" :: ["Install:x"])).db
      = (processLines histId cfgNoCount.count 1 "B" ["Start-Date:C"]
          ⟨true, 0, dbB, []⟩).1.db ∧
    (extract_history cfgNoCount histId dbB
        (["Start-Date:C"] ++ "nodelimiter" :: ["Install:x"])).remaining
      = ["Install:x"] :=
  C7_malformed_line_aborts cfgNoCount histId dbB 1 7 "B" ["Start-Date:C"]
    "nodelimiter" ["Install:x"] "/var/log/apt/history.log" rfl rfl rfl rfl
    (by decide) (by decide) (by decide) (by decide)

/-- C4: a run whose `Start-Date` timestamps are all at or before the cursor
timestamp commits nothing: the machine stays in skipping mode for the whole
run, the database is untouched, no `extract_packages` call is made, and the
final reconciliation over the (empty) set of package events leaves any
inventory unchanged. -/
theorem C4_second_run_commits_nothing (cfg : Config) (hist : History) (db : DB)
    (lines : List String) (le ep : Nat) (lt : String) (p : String)
    (inv : List InventoryItem) (parse : String → Nat → SwOp → List PackageEvent)
    (hpath : cfg.historyPath = some p) (hmap : cfg.mapOk = true)
    (hos : cfg.osSupported = true)
    (hcur : db.get_last_event = some (le, ep, lt)) (hle : le ≠ 0)
    (hall : ∀ t ∈ startTimes hist lines, strLt lt t = false) :
    (extract_history cfg hist db lines).db = db ∧
    (extract_history cfg hist db lines).pkgCalls = [] ∧
    (extract_history cfg hist db lines).skip = true ∧
    mergeEvents inv (eventsOfCalls parse (extract_history cfg hist db lines).pkgCalls)
      = inv := by
  have hfin := processLines_skip_all hist cfg.count le lt lines ⟨true, 0, db, []⟩ rfl hall
  rcases hp : processLines hist cfg.count le lt lines ⟨true, 0, db, []⟩
    with ⟨s1, e1, rem1⟩
  rw [hp] at hfin
  simp only at hfin
  subst hfin
  cases e1 <;> simp [extract_history, hpath, hmap, hos, hcur, hle, hp,
    mergeEvents, eventsOfCalls]

theorem C4_second_run_commits_nothing_witness :
    (extract_history cfgNoCount histId dbB
        ["Start-Date:A", "Install:x", "End-Date:"]).db = dbB ∧
    (extract_history cfgNoCount histId dbB
        ["Start-Date:A", "Install:x", "End-Date:"]).pkgCalls = [] ∧
    (extract_history cfgNoCount histId dbB
        ["Start-Date:A", "Install:x", "End-Date:"]).skip = true ∧
    mergeEvents [⟨"name", "pkg", "1.0", true⟩]
      (eventsOfCalls (fun _ _ _ => [])
        (extract_history cfgNoCount histId dbB
          ["Start-Date:A", "Install:x", "End-Date:"]).pkgCalls)
      = [⟨"name", "pkg", "1.0", true⟩] :=
  C4_second_run_commits_nothing cfgNoCount histId dbB
    ["Start-Date:A", "Install:x", "End-Date:"] 1 7 "B"
    "/var/log/apt/history.log" [⟨"name", "pkg", "1.0", true⟩] (fun _ _ _ => [])
    rfl rfl rfl rfl (by decide) (by decide)

/-- C10: in every extract run, every `extract_packages` invocation carries
a transaction id that is nonzero and belongs to an event committed by
`add_event` during this run (the events appended to the database by the
run); no package event is attached to id 0 or to an uncommitted
transaction. -/
theorem C10_pkg_calls_use_committed_ids (cfg : Config) (hist : History) (db : DB)
    (lines : List String) :
    ∃ M, (extract_history cfg hist db lines).db.events = db.events ++ M ∧
      ∀ cl ∈ (extract_history cfg hist db lines).pkgCalls,
        cl.eid ≠ 0 ∧ cl.eid ∈ M.map Prod.fst := by
  rcases hp : cfg.historyPath with _ | p
  · refine ⟨[], ?_, ?_⟩ <;> simp [extract_history, hp]
  · cases hmap : cfg.mapOk with
    | false => refine ⟨[], ?_, ?_⟩ <;> simp [extract_history, hp, hmap]
    | true =>
      cases hos : cfg.osSupported with
      | false => refine ⟨[], ?_, ?_⟩ <;> simp [extract_history, hp, hmap, hos]
      | true =>
        rcases hcur : db.get_last_event with _ | ⟨le, ep, lt⟩
        · refine ⟨[], ?_, ?_⟩ <;> simp [extract_history, hp, hmap, hos, hcur]
        · by_cases hle : le = 0
          · subst hle
            refine ⟨[], ?_, ?_⟩ <;> simp [extract_history, hp, hmap, hos, hcur]
          · obtain ⟨M, hM1, hM2⟩ := processLines_pkg_invariant hist cfg.count le lt
              lines ⟨true, 0, db, []⟩ db.events [] (by simp) (by simp)
              (fun h => by cases h)
            rcases hpl : processLines hist cfg.count le lt lines ⟨true, 0, db, []⟩
              with ⟨s1, e1, rem1⟩
            rw [hpl] at hM1 hM2
            simp only at hM1 hM2
            have houtdb : (extract_history cfg hist db lines).db = s1.db := by
              cases e1 <;> simp [extract_history, hp, hmap, hos, hcur, hle, hpl]
            have houtpk : (extract_history cfg hist db lines).pkgCalls
                = s1.pkgCalls := by
              cases e1 <;> simp [extract_history, hp, hmap, hos, hcur, hle, hpl]
            refine ⟨M, ?_, ?_⟩
            · rw [houtdb]
              exact hM1
            · rw [houtpk]
              exact hM2

/-- C3 counterexample: with cursor timestamp "B", a log whose first
`Start-Date` is newer ("C") but whose second is older ("A") makes the run
commit transaction (3, "A") whose timestamp is lexicographically below the
cursor timestamp, and leaves the cursor at "A" < "B": both parts of the
claimed invariant fail on this input. -/
theorem C3_counterexample :
    dbB.get_last_event = some (1, 7, "B") ∧
    (extract_history cfgNoCount histId dbB
        ["Start-Date:C", "Start-Date:A"]).db.events
      = [(1, "B"), (2, "C"), (3, "A")] ∧
    strLt "A" "B" = true ∧
    (extract_history cfgNoCount histId dbB
        ["Start-Date:C", "Start-Date:A"]).db.get_last_event = some (3, 7, "A") := by
  refine ⟨rfl, by decide, by decide, rfl⟩

/-- C3 amended: provided the log's start times are non-decreasing (the
chronological order an append-only package-manager log guarantees), the run
never commits an event with timestamp lexicographically at or below the
cursor timestamp, and the cursor timestamp after the run is at or above its
value before the run. -/
theorem C3_amended_cursor_monotone (cfg : Config) (hist : History) (db : DB)
    (lines : List String) (le ep : Nat) (lt : String) (p : String)
    (hpath : cfg.historyPath = some p) (hmap : cfg.mapOk = true)
    (hos : cfg.osSupported = true)
    (hcur : db.get_last_event = some (le, ep, lt)) (hle : le ≠ 0)
    (hsort : List.Pairwise (fun x y => strLt y x = false) (startTimes hist lines)) :
    (∃ M, (extract_history cfg hist db lines).db.events = db.events ++ M ∧
      ∀ q ∈ M, strLt lt q.2 = true) ∧
    (∃ t', ((extract_history cfg hist db lines).db.events.getLast?).map Prod.snd
        = some t' ∧ strLe lt t' = true) := by
  obtain ⟨M, hM1, hM2⟩ := processLines_events_gt hist cfg.count le lt lines
    ⟨true, 0, db, []⟩ db.events hsort [] (by simp) (by simp) (fun h => by cases h)
  rcases hpl : processLines hist cfg.count le lt lines ⟨true, 0, db, []⟩
    with ⟨s1, e1, rem1⟩
  rw [hpl] at hM1
  simp only at hM1
  have hglast : db.events.getLast? = some (le, lt) := (get_last_event_inv hcur).1
  have hout : (extract_history cfg hist db lines).db = s1.db := by
    cases e1 <;> simp [extract_history, hpath, hmap, hos, hcur, hle, hpl]
  rw [hout]
  refine ⟨⟨M, hM1, hM2⟩, ?_⟩
  cases hMnil : M with
  | nil =>
    subst hMnil
    rw [hM1]
    simp only [List.append_nil, hglast]
    refine ⟨lt, rfl, ?_⟩
    simp [strLe, strLt_irrefl]
  | cons q M' =>
    rw [hM1, hMnil, List.getLast?_append_cons]
    rcases hql : (q :: M').getLast? with _ | z
    · simp at hql
    · have hz : z ∈ q :: M' := by
        have := List.mem_getLast?_eq_getLast (l := q :: M') (x := z) (by rw [hql]; rfl)
        obtain ⟨hne, hzz⟩ := this
        rw [hzz]
        exact List.getLast_mem hne
      have hzgt : strLt lt z.2 = true := hM2 z (hMnil ▸ hz)
      refine ⟨z.2, rfl, ?_⟩
      simp [strLe, strLt_asymm lt z.2 hzgt]

theorem C3_amended_cursor_monotone_witness :
    (∃ M, (extract_history cfgNoCount histId dbB
        ["Start-Date:C", "Start-Date:D"]).db.events = dbB.events ++ M ∧
      ∀ q ∈ M, strLt "B" q.2 = true) ∧
    (∃ t', ((extract_history cfgNoCount histId dbB
        ["Start-Date:C", "Start-Date:D"]).db.events.getLast?).map Prod.snd
        = some t' ∧ strLe "B" t' = true) :=
  C3_amended_cursor_monotone cfgNoCount histId dbB
    ["Start-Date:C", "Start-Date:D"] 1 7 "B" "/var/log/apt/history.log"
    rfl rfl rfl rfl (by decide)
    (by
      have h : startTimes histId ["Start-Date:C", "Start-Date:D"] = ["C", "D"] := rfl
      rw [h]
      refine List.pairwise_cons.mpr ⟨?_, List.pairwise_cons.mpr ⟨?_, List.Pairwise.nil⟩⟩
      · intro t ht
        rcases List.mem_cons.mp ht with rfl | ht
        · decide
        · simp at ht
      · intro t ht
        simp at ht)


/-- `stepLine` on the literal `"End-Date:"` line. -/
theorem stepLine_endDateL (hist : History) (c le : Nat) (lt : String) (s : RunState) :
    stepLine hist c le lt "End-Date:" s =
      (if s.skip then .cont s
       else if 0 < c ∧ s.eid - le = c then .halt s .countReached else .cont s) := rfl

/-- The events committed by `k` successful `add_event` calls after cursor id
`le`: ids `le+1, ..., le+k` with timestamps `u 0, ..., u (k-1)`. -/
def newEvents (le : Nat) (u : Nat → String) (k : Nat) : List (Nat × String) :=
  (List.range k).map (fun j => (le + 1 + j, u j))

theorem newEvents_succ (le : Nat) (u : Nat → String) (k : Nat) :
    newEvents le u (k + 1) = newEvents le u k ++ [(le + 1 + k, u k)] := by
  simp [newEvents, List.range_succ]

theorem newEvents_length (le : Nat) (u : Nat → String) (k : Nat) :
    (newEvents le u k).length = k := by
  simp [newEvents]

theorem lastEid_newEvents (E : Nat) (F : Nat → Bool) (init : List (Nat × String))
    (le : Nat) (u : Nat → String) (k : Nat) (hk : 1 ≤ k) :
    DB.lastEid ⟨init ++ newEvents le u k, E, F⟩ = le + k := by
  obtain ⟨m, rfl⟩ : ∃ m, k = m + 1 := ⟨k - 1, by omega⟩
  rw [newEvents_succ]
  unfold DB.lastEid
  rw [← List.append_assoc, List.getLast?_append_cons]
  simp only [List.getLast?_singleton, Option.map_some', Option.getD_some]
  omega

/-- Canonical transaction blocks `k, k+1, ..., k+n-1`: each block is one
`Start-Date` header line followed by one `End-Date` line. -/
def blocks (t : Nat → String) : Nat → Nat → List String
  | _, 0 => []
  | k, n + 1 => ("Start-Date:" ++ t k) :: "End-Date:" :: blocks t (k + 1) n

/-- Core induction for the count-budget claim: starting right before an
`End-Date` line with `k` transactions committed in this run (`1 ≤ k ≤ N`)
and at least `N - k` further blocks available, the loop commits exactly
`N - k` more transactions and halts with `countReached` at the `N`-th
`End-Date`, leaving the later blocks unconsumed. -/
theorem run_blocks_stop (hist : History) (N le : Nat) (lt : String)
    (t u : Nat → String) (hts : ∀ i, hist.extract_timestamp (t i) = some (u i))
    (E : Nat) (F : Nat → Bool) (hF : ∀ n, F n = false)
    (init : List (Nat × String)) (calls : List PkgCall) (hN : 0 < N) :
    ∀ (n k : Nat), 1 ≤ k → k ≤ N → N ≤ k + n →
      processLines hist N le lt ("End-Date:" :: blocks t k n)
        ⟨false, le + k, ⟨init ++ newEvents le u k, E, F⟩, calls⟩
      = (⟨false, le + N, ⟨init ++ newEvents le u N, E, F⟩, calls⟩,
         some .countReached, blocks t N (k + n - N)) := by
  intro n
  induction n with
  | zero =>
    intro k h1 h2 h3
    have hk : k = N := by omega
    subst hk
    rw [processLines, stepLine_endDateL]
    simp only [Bool.false_eq_true, if_false]
    rw [if_pos ⟨hN, by omega⟩]
    simp [blocks]
  | succ m ih =>
    intro k h1 h2 h3
    by_cases hkN : k = N
    · subst hkN
      rw [processLines, stepLine_endDateL]
      simp only [Bool.false_eq_true, if_false]
      rw [if_pos ⟨hN, by omega⟩]
      simp
    · have hklt : k < N := lt_of_le_of_ne h2 hkN
      rw [processLines, stepLine_endDateL]
      simp only [Bool.false_eq_true, if_false]
      rw [if_neg (by intro hc; exact hkN (by omega))]
      simp only [blocks]
      have hadd : (⟨init ++ newEvents le u k, E, F⟩ : DB).add_event (u k)
          = (le + k + 1, ⟨init ++ newEvents le u (k + 1), E, F⟩) := by
        unfold DB.add_event
        rw [if_neg (by simp [hF])]
        rw [lastEid_newEvents E F init le u k h1]
        rw [newEvents_succ, ← List.append_assoc]
        have harith : le + 1 + k = le + k + 1 := by omega
        rw [harith]
      have hstep : stepLine hist N le lt ("Start-Date:" ++ t k)
          ⟨false, le + k, ⟨init ++ newEvents le u k, E, F⟩, calls⟩
          = .cont ⟨false, le + k + 1,
              ⟨init ++ newEvents le u (k + 1), E, F⟩, calls⟩ := by
        rw [stepLine_startDate, hts k]
        simp only [Bool.false_and, Bool.false_eq_true, if_false]
        rw [hadd]
        rw [if_neg (by omega)]
      rw [processLines, hstep]
      have harith2 : k + (m + 1) - N = k + 1 + m - N := by omega
      rw [harith2]
      exact ih (k + 1) (by omega) (by omega) (by omega)

/-- C1 counterexample: with `count = 2` and four new transaction blocks,
the run commits exactly 2 transactions and stops before consuming the
remaining two — but it returns `EXIT_FAILURE` (and never invokes the final
reconciliation), not the success the claim asserts. -/
theorem C1_counterexample :
    (extract_history cfgCount2 histId dbB fourBlocks).db.events
      = [(1, "B"), (2, "C"), (3, "D")] ∧
    (extract_history cfgCount2 histId dbB fourBlocks).remaining
      = ["Start-Date:E", "End-Date:", "Start-Date:F", "End-Date:"] ∧
    (extract_history cfgCount2 histId dbB fourBlocks).exitReason
      = some .countReached ∧
    (extract_history cfgCount2 histId dbB fourBlocks).status = EXIT_FAILURE ∧
    (extract_history cfgCount2 histId dbB fourBlocks).status ≠ EXIT_SUCCESS ∧
    (extract_history cfgCount2 histId dbB fourBlocks).mergeCalls = 0 := by
  refine ⟨by decide, by decide, by decide, by decide, by decide, by decide⟩

/-- C1 amended: with a configured budget `N > 0` and at least `N` new
transaction blocks (each newer than the cursor), one run commits exactly
`N` transactions and stops at the `N`-th `End-Date` without consuming any
further block — but the early stop skips `merge_installed_packages` and the
run returns `EXIT_FAILURE` (numerically the error status), not success. -/
theorem C1_amended_count_stop (cfg : Config) (hist : History) (db : DB)
    (t u : Nat → String) (N m le ep : Nat) (lt p : String)
    (hpath : cfg.historyPath = some p) (hmap : cfg.mapOk = true)
    (hos : cfg.osSupported = true)
    (hcount : cfg.count = N) (hN : 0 < N) (hm : N ≤ m)
    (hcur : db.get_last_event = some (le, ep, lt)) (hle : le ≠ 0)
    (hts : ∀ i, hist.extract_timestamp (t i) = some (u i))
    (h0 : strLt lt (u 0) = true)
    (hF : ∀ n, db.failAdd n = false) :
    (extract_history cfg hist db (blocks t 0 m)).db.events
      = db.events ++ newEvents le u N ∧
    (extract_history cfg hist db (blocks t 0 m)).db.events.length
      = db.events.length + N ∧
    (extract_history cfg hist db (blocks t 0 m)).remaining = blocks t N (m - N) ∧
    (extract_history cfg hist db (blocks t 0 m)).exitReason = some .countReached ∧
    (extract_history cfg hist db (blocks t 0 m)).status = EXIT_FAILURE ∧
    (extract_history cfg hist db (blocks t 0 m)).mergeCalls = 0 := by
  obtain ⟨m', rfl⟩ : ∃ m', m = m' + 1 := ⟨m - 1, by omega⟩
  have hglast : db.events.getLast? = some (le, lt) := (get_last_event_inv hcur).1
  have hlastEid : db.lastEid = le := by
    unfold DB.lastEid
    rw [hglast]
    rfl
  have hadd0 : db.add_event (u 0)
      = (le + 1, ⟨db.events ++ newEvents le u 1, db.epoch, db.failAdd⟩) := by
    unfold DB.add_event
    rw [if_neg (by rw [hF]; simp), hlastEid]
    rfl
  have hstep0 : stepLine hist N le lt ("Start-Date:" ++ t 0) ⟨true, 0, db, []⟩
      = .cont ⟨false, le + 1,
          ⟨db.events ++ newEvents le u 1, db.epoch, db.failAdd⟩, []⟩ := by
    rw [stepLine_startDate, hts 0]
    simp only [h0, Bool.not_true, Bool.and_false, Bool.false_eq_true, if_false]
    rw [hadd0]
    rw [if_neg (by omega)]
  have hrun := run_blocks_stop hist N le lt t u hts db.epoch db.failAdd hF
    db.events [] hN m' 1 (by omega) (by omega) (by omega)
  have hfull : processLines hist N le lt (blocks t 0 (m' + 1)) ⟨true, 0, db, []⟩
      = (⟨false, le + N, ⟨db.events ++ newEvents le u N, db.epoch, db.failAdd⟩, []⟩,
         some .countReached, blocks t N (m' + 1 - N)) := by
    simp only [blocks]
    rw [processLines, hstep0]
    have harith : 1 + m' - N = m' + 1 - N := by omega
    rw [harith] at hrun
    exact hrun
  refine ⟨?_, ?_, ?_, ?_, ?_, ?_⟩ <;>
    simp [extract_history, hpath, hmap, hos, hcur, hle, hcount, hfull, newEvents_length]

/-- Strictly increasing single-character timestamps "C", "D", "E", ... -/
def tW : Nat → String := fun i => ⟨[Char.ofNat (67 + i)]⟩

theorem C1_amended_count_stop_witness :
    (extract_history cfgCount2 histId dbB (blocks tW 0 4)).db.events
      = dbB.events ++ newEvents 1 tW 2 ∧
    (extract_history cfgCount2 histId dbB (blocks tW 0 4)).db.events.length
      = dbB.events.length + 2 ∧
    (extract_history cfgCount2 histId dbB (blocks tW 0 4)).remaining
      = blocks tW 2 (4 - 2) ∧
    (extract_history cfgCount2 histId dbB (blocks tW 0 4)).exitReason
      = some .countReached ∧
    (extract_history cfgCount2 histId dbB (blocks tW 0 4)).status = EXIT_FAILURE ∧
    (extract_history cfgCount2 histId dbB (blocks tW 0 4)).mergeCalls = 0 :=
  C1_amended_count_stop cfgCount2 histId dbB tW tW 2 4 1 7 "B"
    "/var/log/apt/history.log" rfl rfl rfl rfl (by decide) (by decide) rfl
    (by decide) (fun i => rfl) (by decide) (fun n => rfl)

end SwCollector
